import Mathlib

/-
Verification of the RPC value codec in src/rpc/serializers.ts: the encoder
serializeValue, the decoder parseSerializedValue, and the error adapter
serializeError / parseError.

Modelling choices (shallow embedding):
- JavaScript numbers are modelled as a sum of the special forms the code
  distinguishes via Object.is (NaN, Infinity, -Infinity, -0) and ordinary
  finite numbers carried as rationals.  Structural equality of this type is
  exactly the Object.is equivalence the code tests with.
- JavaScript values live in an explicit heap: a value is a primitive or a
  reference (address) into a list of heap objects.  This captures reference
  identity, which the visited set of serializeValue uses for cycle
  detection, and lets cyclic and sibling-shared structures be expressed.
- A Date object is identified by its ISO string (the value of toJSON), a
  RegExp by its source and flags.
- The visited set is a Finset of heap addresses.  Because the source
  mutates one shared Set across the recursion and exceptions do not undo
  mutations, the encoder returns the final state of the set next to the
  result, on success and on failure alike.
- The encoder recursion is driven by fuel; the fuel-exhausted branch models
  engine stack exhaustion.  The wrapper serializeValue supplies
  heap.length + 1 units, which is always enough when starting from an empty
  visited set: every descent into an array or object inserts a fresh valid
  heap address into the visited set, so a chain of open descents is never
  longer than the heap.
-/

inductive JSNum where
  | nan
  | posInf
  | negInf
  | negZero
  | finite (q : ℚ)
deriving DecidableEq

/-- A native JavaScript value: a primitive, or a reference into the heap. -/
inductive JSVal where
  | num (x : JSNum)
  | str (x : String)
  | bool (x : Bool)
  | null
  | undefined
  | sym
  | ref (addr : Nat)
deriving DecidableEq

/-- A heap object: the value kinds serializeValue classifies after the
primitive checks (lines 246-273 of serializers.ts).  funcObj stands for a
reference whose typeof is not object (a function), which reaches the final
Unexpected value throw. -/
inductive JSObj where
  | dateObj (iso : String)
  | regexObj (source flags : String)
  | errorObj (name message : String) (stack : Option String)
  | arrObj (elts : List JSVal)
  | objObj (props : List (String × JSVal))
  | funcObj
deriving DecidableEq

abbrev Heap := List JSObj

/-- The observable content of a decoded value: what the decoder builds, as
a tree (decoding allocates fresh objects, so only structure is observable).
The errorVal alternative is produced only by parseError. -/
inductive NativeValue where
  | num (x : JSNum)
  | str (x : String)
  | bool (x : Bool)
  | null
  | undefined
  | date (iso : String)
  | regex (source flags : String)
  | array (elts : List NativeValue)
  | object (props : List (String × NativeValue))
  | errorVal (name message stack : String)

/-- The wire shape of channels.SerializedValue: an object with optional
fields n, s, b, v, d, r, a, o, h; any subset may be present, and the
decoder checks them in a fixed order. -/
inductive SerializedValue where
  | mk (n : Option JSNum) (s : Option String) (b : Option Bool) (v : Option String)
       (d : Option String) (r : Option (String × String))
       (a : Option (List SerializedValue))
       (o : Option (List (String × SerializedValue)))
       (h : Option Nat)

def ofN (x : JSNum) : SerializedValue := .mk (some x) none none none none none none none none
def ofS (x : String) : SerializedValue := .mk none (some x) none none none none none none none
def ofB (x : Bool) : SerializedValue := .mk none none (some x) none none none none none none
def ofV (tag : String) : SerializedValue := .mk none none none (some tag) none none none none none
def ofD (iso : String) : SerializedValue := .mk none none none none (some iso) none none none none
def ofR (source flags : String) : SerializedValue :=
  .mk none none none none none (some (source, flags)) none none none
def ofA (xs : List SerializedValue) : SerializedValue :=
  .mk none none none none none none (some xs) none none
def ofO (ps : List (String × SerializedValue)) : SerializedValue :=
  .mk none none none none none none none (some ps) none
def ofH (k : Nat) : SerializedValue := .mk none none none none none none none none (some k)

/-- The six recognized literals of the v field (lines 182-195).  An
unrecognized literal yields none: the source has no else branch inside the
v block, so control falls through to the d check. -/
def specialOfTag : String → Option NativeValue
  | "undefined" => some .undefined
  | "null" => some .null
  | "NaN" => some (.num .nan)
  | "Infinity" => some (.num .posInf)
  | "-Infinity" => some (.num .negInf)
  | "-0" => some (.num .negZero)
  | _ => none

/-- One JavaScript property assignment result[k] = x: overwriting an
existing key keeps its original position, a new key is appended. -/
def jsSetProp : List (String × NativeValue) → String → NativeValue → List (String × NativeValue)
  | [], k, x => [(k, x)]
  | (k0, x0) :: rest, k, x =>
    if k0 = k then (k0, x) :: rest else (k0, x0) :: jsSetProp rest k x

/-- Sequential assignments into an initially given object, as the decoder
loop for the o field performs them (later duplicate keys overwrite). -/
def jsAssignAll (acc : List (String × NativeValue)) :
    List (String × NativeValue) → List (String × NativeValue)
  | [] => acc
  | (k, x) :: rest => jsAssignAll (jsSetProp acc k x) rest

mutual
/-- Decoder, lines 175-214 of serializers.ts.  Fields are checked in source
order n, s, b, v, d, r, a, o, h; a handle with no table supplied is the
Unexpected handle error; no recognized field is the Unexpected value
error. -/
def parseSerializedValue (value : SerializedValue) (handles : Option (List NativeValue)) :
    Except String NativeValue :=
  match value with
  | .mk n s b v d r a o h =>
    match n with
    | some x => .ok (.num x)
    | none =>
    match s with
    | some x => .ok (.str x)
    | none =>
    match b with
    | some x => .ok (.bool x)
    | none =>
    match v.bind specialOfTag with
    | some u => .ok u
    | none =>
    match d with
    | some iso => .ok (.date iso)
    | none =>
    match r with
    | some pf => .ok (.regex pf.1 pf.2)
    | none =>
    match a with
    | some xs =>
      match parseList xs handles with
      | .error e => .error e
      | .ok elts => .ok (.array elts)
    | none =>
    match o with
    | some ps =>
      match parseProps ps handles with
      | .error e => .error e
      | .ok pairs => .ok (.object (jsAssignAll [] pairs))
    | none =>
    match h with
    | some k =>
      match handles with
      | none => .error "Unexpected handle"
      | some tbl => .ok ((tbl.get? k).getD .undefined)
    | none => .error "Unexpected value"

/-- Element-wise decoding of the a field (line 201). -/
def parseList (xs : List SerializedValue) (handles : Option (List NativeValue)) :
    Except String (List NativeValue) :=
  match xs with
  | [] => .ok []
  | x :: rest =>
    match parseSerializedValue x handles with
    | .error e => .error e
    | .ok t =>
      match parseList rest handles with
      | .error e => .error e
      | .ok ts => .ok (t :: ts)

/-- Pair-wise decoding of the o field (lines 203-206). -/
def parseProps (ps : List (String × SerializedValue)) (handles : Option (List NativeValue)) :
    Except String (List (String × NativeValue)) :=
  match ps with
  | [] => .ok []
  | (k, x) :: rest =>
    match parseSerializedValue x handles with
    | .error e => .error e
    | .ok t =>
      match parseProps rest handles with
      | .error e => .error e
      | .ok pairs => .ok ((k, t) :: pairs)
end

/-- The HandleOrValue union returned by the caller-supplied resolver
(line 216 of serializers.ts). -/
inductive HandleOrValue where
  | h (k : Nat)
  | fallThrough (value : JSVal)

/-- The membership test visited.has(value): the set only ever holds object
references, so a primitive is never a member. -/
def hasVal (visited : Finset Nat) : JSVal → Bool
  | .ref addr => decide (addr ∈ visited)
  | _ => false

/-- The encoder loop over array elements (lines 259-263): sequential, the
first thrown error aborts, and the shared visited set keeps whatever state
it had when the throw happened. -/
def runSerializeList (f : JSVal → Finset Nat → Except String SerializedValue × Finset Nat) :
    List JSVal → Finset Nat → Except String (List SerializedValue) × Finset Nat
  | [], visited => (.ok [], visited)
  | x :: xs, visited =>
    match f x visited with
    | (.error e, visited2) => (.error e, visited2)
    | (.ok w, visited2) =>
      match runSerializeList f xs visited2 with
      | (.error e, visited3) => (.error e, visited3)
      | (.ok ws, visited3) => (.ok (w :: ws), visited3)

/-- The encoder loop over object properties (lines 267-270). -/
def runSerializeProps (f : JSVal → Finset Nat → Except String SerializedValue × Finset Nat) :
    List (String × JSVal) → Finset Nat → Except String (List (String × SerializedValue)) × Finset Nat
  | [], visited => (.ok [], visited)
  | (k, x) :: xs, visited =>
    match f x visited with
    | (.error e, visited2) => (.error e, visited2)
    | (.ok w, visited2) =>
      match runSerializeProps f xs visited2 with
      | (.error e, visited3) => (.error e, visited3)
      | (.ok pairs, visited3) => (.ok ((k, w) :: pairs), visited3)

/-- The body of serializeValue after the resolver step (lines 224-274):
cycle check first, then the ordered classification chain.  The error
branch is the v8 path, which emits the stack text (or the empty string)
as a plain string.  The recursion on children is abstracted as the
recurse parameter so that the statement of the resolver contract can name
this function. -/
def serializeCore (heap : Heap)
    (recurse : JSVal → Finset Nat → Except String SerializedValue × Finset Nat)
    (value : JSVal) (visited : Finset Nat) :
    Except String SerializedValue × Finset Nat :=
  if hasVal visited value then (.error "Argument is a circular structure", visited)
  else
    match value with
    | .sym => (.ok (ofV "undefined"), visited)
    | .undefined => (.ok (ofV "undefined"), visited)
    | .null => (.ok (ofV "null"), visited)
    | .num .nan => (.ok (ofV "NaN"), visited)
    | .num .posInf => (.ok (ofV "Infinity"), visited)
    | .num .negInf => (.ok (ofV "-Infinity"), visited)
    | .num .negZero => (.ok (ofV "-0"), visited)
    | .bool x => (.ok (ofB x), visited)
    | .num (.finite q) => (.ok (ofN (.finite q)), visited)
    | .str x => (.ok (ofS x), visited)
    | .ref addr =>
      match heap.get? addr with
      | some (.errorObj _ _ stack) => (.ok (ofS (stack.getD "")), visited)
      | some (.dateObj iso) => (.ok (ofD iso), visited)
      | some (.regexObj source flags) => (.ok (ofR source flags), visited)
      | some (.arrObj elts) =>
        match runSerializeList recurse elts (insert addr visited) with
        | (.error e, visited2) => (.error e, visited2)
        | (.ok ws, visited2) => (.ok (ofA ws), visited2.erase addr)
      | some (.objObj props) =>
        match runSerializeProps recurse props (insert addr visited) with
        | (.error e, visited2) => (.error e, visited2)
        | (.ok pairs, visited2) => (.ok (ofO pairs), visited2.erase addr)
      | some .funcObj => (.error "Unexpected value", visited)
      | none => (.error "Unexpected value", visited)

/-- Encoder, lines 217-275 of serializers.ts: the resolver is consulted
first; a handle index stops recursion with exactly the h-tagged value; a
pass-through result substitutes the value to encode and continues in
serializeCore. -/
def serializeRec (heap : Heap) (handleSerializer : JSVal → HandleOrValue) :
    Nat → JSVal → Finset Nat → Except String SerializedValue × Finset Nat
  | 0, _, visited => (.error "Maximum call stack size exceeded", visited)
  | fuel+1, value, visited =>
    match handleSerializer value with
    | .h k => (.ok (ofH k), visited)
    | .fallThrough value2 =>
      serializeCore heap (fun x vis => serializeRec heap handleSerializer fuel x vis) value2 visited

/-- Top entry of the encoder at the always-sufficient recursion budget. -/
def serializeValue (heap : Heap) (handleSerializer : JSVal → HandleOrValue)
    (value : JSVal) (visited : Finset Nat) :
    Except String SerializedValue × Finset Nat :=
  serializeRec heap handleSerializer (heap.length + 1) value visited

/-- The resolver that always signals pass-through without substitution,
as serializeError builds it on line 29. -/
def fallThroughResolver : JSVal → HandleOrValue := fun value => .fallThrough value

/-- Pure element-wise unfolding used by readTreeRec. -/
def readList (f : JSVal → Finset Nat → Option NativeValue) :
    List JSVal → Finset Nat → Option (List NativeValue)
  | [], _ => some []
  | x :: xs, visited =>
    match f x visited with
    | none => none
    | some t =>
      match readList f xs visited with
      | none => none
      | some ts => some (t :: ts)

/-- Pure pair-wise unfolding used by readTreeRec. -/
def readProps (f : JSVal → Finset Nat → Option NativeValue) :
    List (String × JSVal) → Finset Nat → Option (List (String × NativeValue))
  | [], _ => some []
  | (k, x) :: xs, visited =>
    match f x visited with
    | none => none
    | some t =>
      match readProps f xs visited with
      | none => none
      | some pairs => some ((k, t) :: pairs)

/-- The observable tree content of a heap value, by unfolding the heap
along the same traversal (same fuel, same visited-set discipline) as
serializeValue.  It is some t exactly when the value is acyclic and built
only from the round-trippable alternatives: numbers, strings, booleans,
null, undefined, dates, regexes, arrays, and plain objects.  Real
JavaScript objects have unique keys, so the unfolding requires key
uniqueness on objects. -/
def readTreeRec (heap : Heap) : Nat → JSVal → Finset Nat → Option NativeValue
  | 0, _, _ => none
  | fuel+1, value, visited =>
    if hasVal visited value then none
    else
      match value with
      | .num x => some (.num x)
      | .str x => some (.str x)
      | .bool x => some (.bool x)
      | .null => some .null
      | .undefined => some .undefined
      | .sym => none
      | .ref addr =>
        match heap.get? addr with
        | some (.dateObj iso) => some (.date iso)
        | some (.regexObj source flags) => some (.regex source flags)
        | some (.arrObj elts) =>
          match readList (fun x vis => readTreeRec heap fuel x vis) elts (insert addr visited) with
          | none => none
          | some ts => some (.array ts)
        | some (.objObj props) =>
          if (props.map Prod.fst).Nodup then
            match readProps (fun x vis => readTreeRec heap fuel x vis) props (insert addr visited) with
            | none => none
            | some pairs => some (.object pairs)
          else none
        | _ => none

/-- Acyclicity and observable content of a heap value, at the same
recursion budget as serializeValue. -/
def readTree (heap : Heap) (value : JSVal) : Option NativeValue :=
  readTreeRec heap (heap.length + 1) value ∅

mutual
/-- Structural nesting depth of an observable value: leaves count one,
arrays and objects add one on top of their deepest child. -/
def treeDepth : NativeValue → Nat
  | .array xs => 1 + treeDepthList xs
  | .object ps => 1 + treeDepthProps ps
  | _ => 1

def treeDepthList : List NativeValue → Nat
  | [] => 0
  | x :: xs => max (treeDepth x) (treeDepthList xs)

def treeDepthProps : List (String × NativeValue) → Nat
  | [] => 0
  | (_, x) :: xs => max (treeDepth x) (treeDepthProps xs)
end

/-- A heap holding a chain of singleton arrays: address i refers to
address i + 1, and the last address holds an empty array. -/
def chainHeap (n : Nat) : Heap :=
  (List.range n).map (fun i => if i + 1 < n then .arrObj [.ref (i + 1)] else .arrObj [])

/-- The observable content of a chain of singleton arrays. -/
def chainTree : Nat → NativeValue
  | 0 => .array []
  | k+1 => .array [chainTree k]

/-- The error payload of channels.SerializedError: message, optional
stack, and name. -/
structure ErrorPayload where
  message : String
  stack : Option String
  name : String

/-- The wire shape of channels.SerializedError: an optional error branch
and an optional value branch. -/
structure SerializedError where
  error : Option ErrorPayload
  value : Option SerializedValue

/-- Modelled from the spec: helper.isError (imported from ../helper, which
is not part of this repository) recognizes error-like thrown values; here
a value is error-like exactly when it references an error heap object, and
the payload fields are the error properties name, message, and stack that
serializeError reads on line 28. -/
def helperIsErrorPayload (heap : Heap) : JSVal → Option (String × String × Option String)
  | .ref addr =>
    match heap.get? addr with
    | some (.errorObj name message stack) => some (name, message, stack)
    | _ => none
  | _ => none

/-- Error adapter encode, lines 26-30 of serializers.ts: an error-like
value becomes the error branch with message, stack, and name; anything
else goes through serializeValue with an always-pass-through resolver and
a fresh empty visited set, into the value branch.  A throw from
serializeValue propagates. -/
def serializeError (heap : Heap) (e : JSVal) : Except String SerializedError :=
  match helperIsErrorPayload heap e with
  | some (name, message, stack) =>
    .ok { error := some { message := message, stack := stack, name := name }, value := none }
  | none =>
    match serializeValue heap (fun value => .fallThrough value) e ∅ with
    | (.ok w, _) => .ok { error := none, value := some w }
    | (.error msg, _) => .error msg

/-- Error adapter decode, lines 32-46 of serializers.ts.  Without an error
branch the value branch is decoded with no handle table, and its absence
is a loud protocol error.  With an error branch, the name TimeoutError
rebuilds the timeout kind (modelled from the spec: the TimeoutError class
comes from ../errors, which is not part of this repository; it is an error
kind carrying the given message whose name identifies it), anything else a
generic error; both keep the message and the stack, an absent stack
becoming the empty string. -/
def parseError (se : SerializedError) : Except String NativeValue :=
  match se.error with
  | none =>
    match se.value with
    | none => .error "Serialized error must have either an error or a value"
    | some v => parseSerializedValue v none
  | some p =>
    if p.name = "TimeoutError" then .ok (.errorVal "TimeoutError" p.message (p.stack.getD ""))
    else .ok (.errorVal "Error" p.message (p.stack.getD ""))


theorem runSerializeList_ok_visited
    {f : JSVal → Finset Nat → Except String SerializedValue × Finset Nat}
    (hf : ∀ x vis w vis2, f x vis = (.ok w, vis2) → vis2 = vis) :
    ∀ xs vis ws vis2, runSerializeList f xs vis = (.ok ws, vis2) → vis2 = vis := by
  intro xs
  induction xs with
  | nil =>
    intro vis ws vis2 h
    simp [runSerializeList] at h
    exact h.2.symm
  | cons x rest ih =>
    intro vis ws vis2 h
    simp only [runSerializeList] at h
    split at h
    · simp at h
    · rename_i w visx hx
      split at h
      · simp at h
      · rename_i ws3 vis3 hr
        simp at h
        rw [← h.2, ih visx ws3 vis3 hr, hf x vis w visx hx]

theorem runSerializeProps_ok_visited
    {f : JSVal → Finset Nat → Except String SerializedValue × Finset Nat}
    (hf : ∀ x vis w vis2, f x vis = (.ok w, vis2) → vis2 = vis) :
    ∀ ps vis pairs vis2, runSerializeProps f ps vis = (.ok pairs, vis2) → vis2 = vis := by
  intro ps
  induction ps with
  | nil =>
    intro vis pairs vis2 h
    simp [runSerializeProps] at h
    exact h.2.symm
  | cons p rest ih =>
    rcases p with ⟨k, x⟩
    intro vis pairs vis2 h
    simp only [runSerializeProps] at h
    split at h
    · simp at h
    · rename_i w visx hx
      split at h
      · simp at h
      · rename_i ws3 vis3 hr
        simp at h
        rw [← h.2, ih visx ws3 vis3 hr, hf x vis w visx hx]

theorem serializeCore_ok_visited {heap : Heap}
    {recurse : JSVal → Finset Nat → Except String SerializedValue × Finset Nat}
    (hf : ∀ x vis w vis2, recurse x vis = (.ok w, vis2) → vis2 = vis) :
    ∀ value vis w vis2, serializeCore heap recurse value vis = (.ok w, vis2) → vis2 = vis := by
  intro value vis w vis2 h
  unfold serializeCore at h
  split at h
  · simp at h
  · rename_i hn
    split at h
    case _ => simp at h; exact h.2.symm
    case _ => simp at h; exact h.2.symm
    case _ => simp at h; exact h.2.symm
    case _ => simp at h; exact h.2.symm
    case _ => simp at h; exact h.2.symm
    case _ => simp at h; exact h.2.symm
    case _ => simp at h; exact h.2.symm
    case _ => simp at h; exact h.2.symm
    case _ => simp at h; exact h.2.symm
    case _ => simp at h; exact h.2.symm
    case _ =>
      rename_i addr
      have hmem : addr ∉ vis := by simpa [hasVal] using hn
      split at h
      · simp at h; exact h.2.symm
      · simp at h; exact h.2.symm
      · simp at h; exact h.2.symm
      · rename_i elts hg
        split at h
        · simp at h
        · rename_i ws visM hl
          simp at h
          rw [← h.2, runSerializeList_ok_visited hf elts _ ws visM hl,
            Finset.erase_insert hmem]
      · rename_i props hg
        split at h
        · simp at h
        · rename_i pairs visM hl
          simp at h
          rw [← h.2, runSerializeProps_ok_visited hf props _ pairs visM hl,
            Finset.erase_insert hmem]
      · simp at h
      · simp at h

theorem serializeRec_ok_visited (heap : Heap) (hsr : JSVal → HandleOrValue) :
    ∀ fuel value vis w vis2,
      serializeRec heap hsr fuel value vis = (.ok w, vis2) → vis2 = vis := by
  intro fuel
  induction fuel with
  | zero =>
    intro value vis w vis2 h
    simp [serializeRec] at h
  | succ fuel ih =>
    intro value vis w vis2 h
    unfold serializeRec at h
    split at h
    · simp at h; exact h.2.symm
    · exact serializeCore_ok_visited (fun x v w2 v2 hx => ih x v w2 v2 hx) _ vis w vis2 h

theorem jsSetProp_of_not_mem (k : String) (x : NativeValue) :
    ∀ acc : List (String × NativeValue), k ∉ acc.map Prod.fst →
      jsSetProp acc k x = acc ++ [(k, x)] := by
  intro acc
  induction acc with
  | nil => intro; rfl
  | cons p rest ih =>
    rcases p with ⟨k0, x0⟩
    intro hk
    simp only [List.map_cons, List.mem_cons, not_or] at hk
    have hne : ¬k0 = k := fun heq => hk.1 heq.symm
    simp [jsSetProp, hne, ih hk.2]

theorem jsAssignAll_eq_append :
    ∀ (ps acc : List (String × NativeValue)), ((acc ++ ps).map Prod.fst).Nodup →
      jsAssignAll acc ps = acc ++ ps := by
  intro ps
  induction ps with
  | nil => intro acc _; simp [jsAssignAll]
  | cons p rest ih =>
    rcases p with ⟨k, x⟩
    intro acc hnd
    have hk : k ∉ acc.map Prod.fst := by
      simp only [List.map_append, List.nodup_append] at hnd
      intro hmem
      exact hnd.2.2 hmem (by simp)
    simp only [jsAssignAll]
    rw [jsSetProp_of_not_mem k x acc hk]
    rw [ih (acc ++ [(k, x)]) (by simpa using hnd)]
    simp

theorem lockstep_list
    {f : JSVal → Finset Nat → Option NativeValue}
    {g : JSVal → Finset Nat → Except String SerializedValue × Finset Nat}
    (hfg : ∀ x vis t, f x vis = some t →
      ∃ w, g x vis = (.ok w, vis) ∧ parseSerializedValue w none = .ok t) :
    ∀ xs vis ts, readList f xs vis = some ts →
      ∃ ws, runSerializeList g xs vis = (.ok ws, vis) ∧ parseList ws none = .ok ts := by
  intro xs
  induction xs with
  | nil =>
    intro vis ts h
    simp only [readList, Option.some.injEq] at h
    exact ⟨[], by simp [runSerializeList], by simp [parseList, ← h]⟩
  | cons x rest ih =>
    intro vis ts h
    simp only [readList] at h
    split at h
    · simp at h
    · rename_i t0 hx
      split at h
      · simp at h
      · rename_i ts0 hrest
        simp only [Option.some.injEq] at h
        obtain ⟨w, hgw, hpw⟩ := hfg x vis t0 hx
        obtain ⟨ws, hgws, hpws⟩ := ih vis ts0 hrest
        exact ⟨w :: ws, by simp [runSerializeList, hgw, hgws],
          by simp [parseList, hpw, hpws, ← h]⟩

theorem lockstep_props
    {f : JSVal → Finset Nat → Option NativeValue}
    {g : JSVal → Finset Nat → Except String SerializedValue × Finset Nat}
    (hfg : ∀ x vis t, f x vis = some t →
      ∃ w, g x vis = (.ok w, vis) ∧ parseSerializedValue w none = .ok t) :
    ∀ ps vis qs, readProps f ps vis = some qs →
      qs.map Prod.fst = ps.map Prod.fst ∧
      ∃ ws, runSerializeProps g ps vis = (.ok ws, vis) ∧ parseProps ws none = .ok qs := by
  intro ps
  induction ps with
  | nil =>
    intro vis qs h
    simp only [readProps, Option.some.injEq] at h
    subst h
    exact ⟨rfl, [], by simp [runSerializeProps], by simp [parseProps]⟩
  | cons p rest ih =>
    rcases p with ⟨k, x⟩
    intro vis qs h
    simp only [readProps] at h
    split at h
    · simp at h
    · rename_i t0 hx
      split at h
      · simp at h
      · rename_i qs0 hrest
        simp only [Option.some.injEq] at h
        subst h
        obtain ⟨w, hgw, hpw⟩ := hfg x vis t0 hx
        obtain ⟨hkeys, ws, hgws, hpws⟩ := ih vis qs0 hrest
        refine ⟨by simp [hkeys], (k, w) :: ws,
          by simp [runSerializeProps, hgw, hgws],
          by simp [parseProps, hpw, hpws]⟩

theorem serialize_lockstep (heap : Heap) :
    ∀ fuel value vis t, readTreeRec heap fuel value vis = some t →
      ∃ w, serializeRec heap fallThroughResolver fuel value vis = (.ok w, vis) ∧
        parseSerializedValue w none = .ok t := by
  intro fuel
  induction fuel with
  | zero => intro value vis t h; simp [readTreeRec] at h
  | succ fuel ih =>
    intro value vis t h
    unfold readTreeRec at h
    split at h
    · simp at h
    · rename_i hn
      split at h
      · rename_i x
        rw [Option.some.injEq] at h
        subst h
        cases x with
        | nan =>
          exact ⟨ofV "NaN", by simp [serializeRec, fallThroughResolver, serializeCore, hasVal], rfl⟩
        | posInf =>
          exact ⟨ofV "Infinity",
            by simp [serializeRec, fallThroughResolver, serializeCore, hasVal], rfl⟩
        | negInf =>
          exact ⟨ofV "-Infinity",
            by simp [serializeRec, fallThroughResolver, serializeCore, hasVal], rfl⟩
        | negZero =>
          exact ⟨ofV "-0", by simp [serializeRec, fallThroughResolver, serializeCore, hasVal], rfl⟩
        | finite q =>
          exact ⟨ofN (.finite q),
            by simp [serializeRec, fallThroughResolver, serializeCore, hasVal], rfl⟩
      · rename_i x
        rw [Option.some.injEq] at h
        subst h
        exact ⟨ofS x, by simp [serializeRec, fallThroughResolver, serializeCore, hasVal], rfl⟩
      · rename_i x
        rw [Option.some.injEq] at h
        subst h
        exact ⟨ofB x, by simp [serializeRec, fallThroughResolver, serializeCore, hasVal], rfl⟩
      · rw [Option.some.injEq] at h
        subst h
        exact ⟨ofV "null", by simp [serializeRec, fallThroughResolver, serializeCore, hasVal], rfl⟩
      · rw [Option.some.injEq] at h
        subst h
        exact ⟨ofV "undefined",
          by simp [serializeRec, fallThroughResolver, serializeCore, hasVal], rfl⟩
      · simp at h
      · rename_i addr
        have hmem : addr ∉ vis := by simpa [hasVal] using hn
        split at h
        · rename_i iso heq
          rw [Option.some.injEq] at h
          subst h
          rw [List.get?_eq_getElem?] at heq
          exact ⟨ofD iso,
            by simp [serializeRec, fallThroughResolver, serializeCore, hasVal, hmem, heq], rfl⟩
        · rename_i source flags heq
          rw [Option.some.injEq] at h
          subst h
          rw [List.get?_eq_getElem?] at heq
          exact ⟨ofR source flags,
            by simp [serializeRec, fallThroughResolver, serializeCore, hasVal, hmem, heq], rfl⟩
        · rename_i elts heq
          split at h
          · simp at h
          · rename_i ts heq2
            rw [Option.some.injEq] at h
            subst h
            obtain ⟨ws, hws, hpws⟩ :=
              lockstep_list (fun x vis t hx => ih x vis t hx) elts (insert addr vis) ts heq2
            rw [List.get?_eq_getElem?] at heq
            have hws2 : runSerializeList (fun x vis => serializeRec heap fallThroughResolver fuel x vis)
                elts (insert addr vis) = (Except.ok ws, insert addr vis) := hws
            refine ⟨ofA ws, ?_, ?_⟩
            · simp [serializeRec, fallThroughResolver, serializeCore, hasVal, hmem, heq, hws2,
                Finset.erase_insert hmem]
            · simp [parseSerializedValue, ofA, hpws]
        · rename_i props heq
          split at h
          · rename_i hnodup
            split at h
            · simp at h
            · rename_i qs heq2
              rw [Option.some.injEq] at h
              subst h
              obtain ⟨hkeys, ws, hws, hpws⟩ :=
                lockstep_props (fun x vis t hx => ih x vis t hx) props (insert addr vis) qs heq2
              have hassign : jsAssignAll [] qs = qs := by
                have := jsAssignAll_eq_append qs [] (by simpa [hkeys] using hnodup)
                simpa using this
              rw [List.get?_eq_getElem?] at heq
              have hws2 : runSerializeProps (fun x vis => serializeRec heap fallThroughResolver fuel x vis)
                  props (insert addr vis) = (Except.ok ws, insert addr vis) := hws
              refine ⟨ofO ws, ?_, ?_⟩
              · simp [serializeRec, fallThroughResolver, serializeCore, hasVal, hmem, heq, hws2,
                  Finset.erase_insert hmem]
              · simp [parseSerializedValue, ofO, hpws, hassign]
          · simp at h
        · simp at h

theorem readList_mono {f f2 : JSVal → Finset Nat → Option NativeValue}
    {vis vis2 : Finset Nat}
    (hf : ∀ x t, f x vis = some t → f2 x vis2 = some t) :
    ∀ xs ts, readList f xs vis = some ts → readList f2 xs vis2 = some ts := by
  intro xs
  induction xs with
  | nil => intro ts h; simpa [readList] using h
  | cons x rest ih =>
    intro ts h
    simp only [readList] at h ⊢
    split at h
    · simp at h
    · rename_i t0 hx
      split at h
      · simp at h
      · rename_i ts0 hrest
        rw [hf x t0 hx, ih ts0 hrest]
        exact h

theorem readProps_mono {f f2 : JSVal → Finset Nat → Option NativeValue}
    {vis vis2 : Finset Nat}
    (hf : ∀ x t, f x vis = some t → f2 x vis2 = some t) :
    ∀ ps qs, readProps f ps vis = some qs → readProps f2 ps vis2 = some qs := by
  intro ps
  induction ps with
  | nil => intro qs h; simpa [readProps] using h
  | cons p rest ih =>
    rcases p with ⟨k, x⟩
    intro qs h
    simp only [readProps] at h ⊢
    split at h
    · simp at h
    · rename_i t0 hx
      split at h
      · simp at h
      · rename_i qs0 hrest
        rw [hf x t0 hx, ih qs0 hrest]
        exact h


theorem readTreeRec_extend (heap ext : Heap) :
    ∀ fuel value vis (W : Finset Nat) t, readTreeRec heap fuel value vis = some t →
      (∀ b ∈ W, heap.length ≤ b) →
      readTreeRec (heap ++ ext) fuel value (vis ∪ W) = some t := by
  intro fuel
  induction fuel with
  | zero => intro value vis W t h _; simp [readTreeRec] at h
  | succ fuel ih =>
    intro value vis W t h hW
    unfold readTreeRec at h
    split at h
    · simp at h
    · rename_i hn
      split at h
      · simpa [readTreeRec, hasVal] using h
      · simpa [readTreeRec, hasVal] using h
      · simpa [readTreeRec, hasVal] using h
      · simpa [readTreeRec, hasVal] using h
      · simpa [readTreeRec, hasVal] using h
      · simp at h
      · rename_i addr
        have hmem : addr ∉ vis := by simpa [hasVal] using hn
        split at h
        all_goals rename_i heq
        case _ iso =>
          have haddr : addr < heap.length := (List.get?_eq_some.1 heq).1
          have hW2 : addr ∉ W := fun hin => absurd (hW addr hin) (by omega)
          rw [List.get?_eq_getElem?] at heq
          have hg2 : (heap ++ ext)[addr]? = some (JSObj.dateObj iso) := by
            rw [List.getElem?_append_left haddr]; exact heq
          simp [readTreeRec, hasVal, hmem, hW2, hg2, h]
        case _ source flags =>
          have haddr : addr < heap.length := (List.get?_eq_some.1 heq).1
          have hW2 : addr ∉ W := fun hin => absurd (hW addr hin) (by omega)
          rw [List.get?_eq_getElem?] at heq
          have hg2 : (heap ++ ext)[addr]? = some (JSObj.regexObj source flags) := by
            rw [List.getElem?_append_left haddr]; exact heq
          simp [readTreeRec, hasVal, hmem, hW2, hg2, h]
        case _ elts =>
          have haddr : addr < heap.length := (List.get?_eq_some.1 heq).1
          have hW2 : addr ∉ W := fun hin => absurd (hW addr hin) (by omega)
          rw [List.get?_eq_getElem?] at heq
          have hg2 : (heap ++ ext)[addr]? = some (JSObj.arrObj elts) := by
            rw [List.getElem?_append_left haddr]; exact heq
          split at h
          · simp at h
          · rename_i ts heq2
            have hmono :
                readList (fun x vis => readTreeRec (heap ++ ext) fuel x vis) elts
                  (insert addr (vis ∪ W)) = some ts := by
              refine readList_mono (fun x t0 hx => ?_) elts ts heq2
              have := ih x (insert addr vis) W t0 hx hW
              rwa [Finset.insert_union] at this
            simp [readTreeRec, hasVal, hmem, hW2, hg2, hmono, h]
        case _ props =>
          have haddr : addr < heap.length := (List.get?_eq_some.1 heq).1
          have hW2 : addr ∉ W := fun hin => absurd (hW addr hin) (by omega)
          rw [List.get?_eq_getElem?] at heq
          have hg2 : (heap ++ ext)[addr]? = some (JSObj.objObj props) := by
            rw [List.getElem?_append_left haddr]; exact heq
          split at h
          · rename_i hnodup
            split at h
            · simp at h
            · rename_i qs heq2
              have hmono :
                  readProps (fun x vis => readTreeRec (heap ++ ext) fuel x vis) props
                    (insert addr (vis ∪ W)) = some qs := by
                refine readProps_mono (fun x t0 hx => ?_) props qs heq2
                have := ih x (insert addr vis) W t0 hx hW
                rwa [Finset.insert_union] at this
              simp [readTreeRec, hasVal, hmem, hW2, hg2, hnodup, hmono, h]
          · simp at h
        case _ => simp at h

theorem chainHeap_length (n : Nat) : (chainHeap n).length = n := by
  simp [chainHeap]

theorem chainHeap_get (n i : Nat) (hi : i < n) :
    (chainHeap n)[i]? =
      some (if i + 1 < n then JSObj.arrObj [JSVal.ref (i + 1)] else JSObj.arrObj []) := by
  simp [chainHeap, List.getElem?_map, List.getElem?_range hi]


theorem readTreeRec_ref_arr (heap : Heap) (fuel addr : Nat) (vis : Finset Nat)
    (elts : List JSVal) (hmem : addr ∉ vis) (hg : heap.get? addr = some (.arrObj elts)) :
    readTreeRec heap (fuel + 1) (JSVal.ref addr) vis =
      match readList (fun x v => readTreeRec heap fuel x v) elts (insert addr vis) with
      | none => none
      | some ts => some (.array ts) := by
  simp only [readTreeRec]
  rw [if_neg (by simp [hasVal, hmem])]
  rw [hg]

theorem chainHeap_read (n : Nat) :
    ∀ k i, i + k + 1 = n →
      readTreeRec (chainHeap n) (k + 2) (JSVal.ref i) (Finset.range i) = some (chainTree k) := by
  intro k
  induction k with
  | zero =>
    intro i hi
    have hi2 : i < n := by omega
    have hi3 : ¬(i + 1 < n) := by omega
    have hg : (chainHeap n).get? i = some (JSObj.arrObj []) := by
      rw [List.get?_eq_getElem?, chainHeap_get n i hi2]; simp [hi3]
    have hmem : i ∉ Finset.range i := by simp
    rw [show (0 : Nat) + 2 = 1 + 1 from rfl,
      readTreeRec_ref_arr (chainHeap n) 1 i (Finset.range i) [] hmem hg]
    simp [readList, chainTree]
  | succ k ih =>
    intro i hi
    have hi2 : i < n := by omega
    have hi3 : i + 1 < n := by omega
    have hg : (chainHeap n).get? i = some (JSObj.arrObj [JSVal.ref (i + 1)]) := by
      rw [List.get?_eq_getElem?, chainHeap_get n i hi2]; simp [hi3]
    have hmem : i ∉ Finset.range i := by simp
    have hchild := ih (i + 1) (by omega)
    have hrange : insert i (Finset.range i) = Finset.range (i + 1) := (Finset.range_succ).symm
    rw [show k + 1 + 2 = (k + 2) + 1 from rfl,
      readTreeRec_ref_arr (chainHeap n) (k + 2) i (Finset.range i) [JSVal.ref (i + 1)] hmem hg]
    simp only [readList, hrange, hchild]
    simp [chainTree]

theorem chainHeap_read_top (m : Nat) :
    readTree (chainHeap (m + 1)) (JSVal.ref 0) = some (chainTree m) := by
  have h := chainHeap_read (m + 1) m 0 (by omega)
  unfold readTree
  rw [chainHeap_length]
  simpa using h

theorem treeDepth_chainTree : ∀ k, treeDepth (chainTree k) = k + 1 := by
  intro k
  induction k with
  | zero => simp [chainTree, treeDepth, treeDepthList]
  | succ k ih =>
    simp [chainTree, treeDepth, treeDepthList, ih]
    omega

theorem readTree_not_errorLike (heap : Heap) (value : JSVal) (t : NativeValue)
    (h : readTree heap value = some t) : helperIsErrorPayload heap value = none := by
  unfold readTree readTreeRec at h
  split at h
  · simp at h
  · split at h
    · rfl
    · rfl
    · rfl
    · rfl
    · rfl
    · simp at h
    · rename_i addr hn
      split at h
      case _ =>
        rename_i heq
        rw [List.get?_eq_getElem?] at heq
        simp [helperIsErrorPayload, heq]
      case _ =>
        rename_i heq
        rw [List.get?_eq_getElem?] at heq
        simp [helperIsErrorPayload, heq]
      case _ =>
        rename_i heq
        rw [List.get?_eq_getElem?] at heq
        simp [helperIsErrorPayload, heq]
      case _ =>
        rename_i heq
        rw [List.get?_eq_getElem?] at heq
        simp [helperIsErrorPayload, heq]
      case _ => simp at h

theorem serializeRec_ref_arr (heap : Heap) (fuel addr : Nat) (vis : Finset Nat)
    (elts : List JSVal) (hmem : addr ∉ vis) (hg : heap.get? addr = some (.arrObj elts)) :
    serializeRec heap fallThroughResolver (fuel + 1) (JSVal.ref addr) vis =
      match runSerializeList (fun x v => serializeRec heap fallThroughResolver fuel x v) elts
        (insert addr vis) with
      | (.error e, visited2) => (.error e, visited2)
      | (.ok ws, visited2) => (.ok (ofA ws), visited2.erase addr) := by
  simp only [serializeRec, fallThroughResolver, serializeCore]
  rw [if_neg (by simp [hasVal, hmem])]
  rw [hg]

/-- C1: for every native value built from numbers (including NaN, Infinity,
negative Infinity, negative zero, and zero), strings, booleans, null,
undefined, dates, regexes, arrays, and plain objects, containing no cycles
(readTree computes an observable tree t) and with a handle resolver that
always signals pass-through, decoding the result of serializeValue with
parseSerializedValue yields exactly t, the observable content of the
original; equality of JSNum is Object.is equivalence, so the sign of zero
is preserved and NaN is distinguished from every other number. -/
theorem serializeValue_parseSerializedValue_roundtrip (heap : Heap)
    (hsr : JSVal → HandleOrValue) (hpass : ∀ x, hsr x = .fallThrough x)
    (value : JSVal) (t : NativeValue) (hval : readTree heap value = some t) :
    ∃ w, serializeValue heap hsr value ∅ = (Except.ok w, ∅) ∧
      parseSerializedValue w none = Except.ok t := by
  have hres : hsr = fallThroughResolver := funext hpass
  subst hres
  exact serialize_lockstep heap (heap.length + 1) value ∅ t hval

/-- Witness for C1 at the example used by the spec: an object with an
array of numeric edge cases and an undefined property. -/
theorem serializeValue_parseSerializedValue_roundtrip_witness :
    ∃ w, serializeValue
        [JSObj.objObj [("a", JSVal.ref 1), ("b", JSVal.undefined)],
         JSObj.arrObj [JSVal.num (.finite 1), JSVal.num .nan, JSVal.num .negZero, JSVal.str "s"]]
        fallThroughResolver (JSVal.ref 0) ∅ = (Except.ok w, ∅) ∧
      parseSerializedValue w none =
        Except.ok (.object
          [("a", .array [.num (.finite 1), .num .nan, .num .negZero, .str "s"]),
           ("b", .undefined)]) :=
  serializeValue_parseSerializedValue_roundtrip
    [JSObj.objObj [("a", JSVal.ref 1), ("b", JSVal.undefined)],
     JSObj.arrObj [JSVal.num (.finite 1), JSVal.num .nan, JSVal.num .negZero, JSVal.str "s"]]
    fallThroughResolver (fun _ => rfl) (JSVal.ref 0) _ rfl

/-- C2 counterexample: encoding the self-referential array raises the
circular-structure error but leaves address 0 in the visited set: the
value is not removed on the failing exit path, and the initially empty
set is not empty after the failing top-level call. -/
theorem serializeValue_visited_not_restored_on_error :
    (serializeValue [JSObj.arrObj [JSVal.ref 0]] fallThroughResolver (JSVal.ref 0) ∅).1 =
      Except.error "Argument is a circular structure" ∧
    (serializeValue [JSObj.arrObj [JSVal.ref 0]] fallThroughResolver (JSVal.ref 0) ∅).2 ≠ ∅ :=
  ⟨rfl, by decide⟩

/-- C2 (amended): on every successful exit the value added when descending
is removed again, so serializeValue returns the visited set exactly as
received; in particular a set passed in empty is empty again after every
successful top-level call.  When the encoding of children throws, the
error propagates without the removal, so a failing call can leave the
value in the set (see the counterexample). -/
theorem serializeValue_ok_restores_visited (heap : Heap)
    (hsr : JSVal → HandleOrValue) (value : JSVal) (visited : Finset Nat)
    (w : SerializedValue) (visited2 : Finset Nat)
    (h : serializeValue heap hsr value visited = (Except.ok w, visited2)) :
    visited2 = visited :=
  serializeRec_ok_visited heap hsr (heap.length + 1) value visited w visited2 h

/-- Witness for the amended C2 at a successful call. -/
theorem serializeValue_ok_restores_visited_witness :
    (serializeValue [] fallThroughResolver (JSVal.str "x") ∅).2 = ∅ :=
  serializeValue_ok_restores_visited [] fallThroughResolver (JSVal.str "x") ∅ (ofS "x")
    ((serializeValue [] fallThroughResolver (JSVal.str "x") ∅).2) rfl

/-- C3: serializeValue fails with the circular-structure error on the
self-referential array (an array whose element is the array itself) and on
the self-referential object (an object whose property self is the object
itself); the membership check against the visited set fires at the inner
occurrence before descending into its children, so the recursion stops
instead of looping or exhausting the stack. -/
theorem serializeValue_rejects_cycles :
    (serializeValue [JSObj.arrObj [JSVal.ref 0]] fallThroughResolver (JSVal.ref 0) ∅).1 =
      Except.error "Argument is a circular structure" ∧
    (serializeValue [JSObj.objObj [("self", JSVal.ref 0)]] fallThroughResolver
      (JSVal.ref 0) ∅).1 = Except.error "Argument is a circular structure" :=
  ⟨rfl, rfl⟩

/-- C4: the resolver is consulted before any type inspection: whenever it
returns a handle index k, serializeValue returns exactly the h-tagged wire
value, for every heap, value, and visited set, so no structural descent
happens; a pass-through result substitutes the carried value and continues
with the classification body serializeCore.  Decoding the h-tagged value
against a table of length greater than k returns the k-th table entry;
decoding it with no table fails with the Unexpected handle error. -/
theorem handle_indirection :
    (∀ (heap : Heap) (hsr : JSVal → HandleOrValue) (value : JSVal)
        (visited : Finset Nat) (k : Nat), hsr value = .h k →
          serializeValue heap hsr value visited = (Except.ok (ofH k), visited)) ∧
    (∀ (heap : Heap) (hsr : JSVal → HandleOrValue) (fuel : Nat) (value value2 : JSVal)
        (visited : Finset Nat), hsr value = .fallThrough value2 →
          serializeRec heap hsr (fuel + 1) value visited =
            serializeCore heap (fun x vis => serializeRec heap hsr fuel x vis) value2 visited) ∧
    (∀ (tbl : List NativeValue) (k : Nat) (hk : k < tbl.length),
        parseSerializedValue (ofH k) (some tbl) = Except.ok (tbl.get ⟨k, hk⟩)) ∧
    (∀ k : Nat, parseSerializedValue (ofH k) none = Except.error "Unexpected handle") := by
  refine ⟨?_, ?_, ?_, fun k => rfl⟩
  · intro heap hsr value visited k h
    simp [serializeValue, serializeRec, h]
  · intro heap hsr fuel value value2 visited h
    simp [serializeRec, h]
  · intro tbl k hk
    simp [parseSerializedValue, ofH, List.getElem?_eq_getElem hk]

/-- Witness for C4: a resolver that maps everything to handle 7 stops the
encoder even on the cyclic heap; decoding returns the table entry, and
decoding with no table fails. -/
theorem handle_indirection_witness :
    serializeValue [JSObj.arrObj [JSVal.ref 0]] (fun _ => .h 7) (JSVal.ref 0) ∅ =
      (Except.ok (ofH 7), ∅) ∧
    parseSerializedValue (ofH 0) (some [NativeValue.str "entry"]) =
      Except.ok (NativeValue.str "entry") ∧
    parseSerializedValue (ofH 3) none = Except.error "Unexpected handle" := by
  refine ⟨handle_indirection.1 [JSObj.arrObj [JSVal.ref 0]] (fun _ => .h 7)
    (JSVal.ref 0) ∅ 7 rfl, ?_, handle_indirection.2.2.2 3⟩
  have := handle_indirection.2.2.1 [NativeValue.str "entry"] 0 (by decide)
  simpa using this

/-- C5: sibling reuse is not cyclic: for every non-cyclic value x (readTree
computes a tree t), encoding the two-element array that holds x at both
positions succeeds, encodes x structurally at both positions, and decodes
to the array of two copies of t; only sharing between a value and its own
ancestor is rejected as circular. -/
theorem sibling_reuse_not_cyclic (heap : Heap) (x : JSVal) (t : NativeValue)
    (hx : readTree heap x = some t) :
    ∃ w, serializeValue (heap ++ [JSObj.arrObj [x, x]]) fallThroughResolver
        (JSVal.ref heap.length) ∅ = (Except.ok (ofA [w, w]), ∅) ∧
      parseSerializedValue (ofA [w, w]) none = Except.ok (NativeValue.array [t, t]) := by
  have hx2 : readTreeRec (heap ++ [JSObj.arrObj [x, x]]) (heap.length + 1) x {heap.length} =
      some t := by
    have := readTreeRec_extend heap [JSObj.arrObj [x, x]] (heap.length + 1) x ∅
      {heap.length} t hx (by simp)
    simpa using this
  obtain ⟨w, hw, hpw⟩ := serialize_lockstep (heap ++ [JSObj.arrObj [x, x]])
    (heap.length + 1) x {heap.length} t hx2
  have hg : (heap ++ [JSObj.arrObj [x, x]]).get? heap.length = some (JSObj.arrObj [x, x]) :=
    List.get?_concat_length heap _
  refine ⟨w, ?_, ?_⟩
  · show serializeRec (heap ++ [JSObj.arrObj [x, x]]) fallThroughResolver
      ((heap ++ [JSObj.arrObj [x, x]]).length + 1) (JSVal.ref heap.length) ∅ = _
    rw [show (heap ++ [JSObj.arrObj [x, x]]).length + 1 = (heap.length + 1) + 1 by simp]
    rw [serializeRec_ref_arr (heap ++ [JSObj.arrObj [x, x]]) (heap.length + 1) heap.length ∅
      [x, x] (by simp) hg]
    simp [runSerializeList, hw]
  · simp [parseSerializedValue, ofA, parseList, hpw]

/-- Witness for C5: the same one-property object at both array positions. -/
theorem sibling_reuse_not_cyclic_witness :
    ∃ w, serializeValue
        ([JSObj.objObj [("k", JSVal.str "v")]] ++ [JSObj.arrObj [JSVal.ref 0, JSVal.ref 0]])
        fallThroughResolver (JSVal.ref 1) ∅ = (Except.ok (ofA [w, w]), ∅) ∧
      parseSerializedValue (ofA [w, w]) none =
        Except.ok (NativeValue.array
          [.object [("k", .str "v")], .object [("k", .str "v")]]) := by
  have := sibling_reuse_not_cyclic [JSObj.objObj [("k", JSVal.str "v")]] (JSVal.ref 0)
    (.object [("k", .str "v")]) rfl
  simpa using this

/-- C6: a tagged value in which none of the recognized fields is set (in
particular the all-fields-absent value, and also one whose only set field
is an unrecognized v literal) makes parseSerializedValue fail with the
Unexpected value error, with or without a handle table, rather than
returning any default native value. -/
theorem parse_malformed_fails (v : Option String) (handles : Option (List NativeValue))
    (hv : v.bind specialOfTag = none) :
    parseSerializedValue (SerializedValue.mk none none none v none none none none none)
      handles = Except.error "Unexpected value" := by
  simp only [parseSerializedValue, hv]

/-- Witness for C6 at the all-fields-absent tagged value. -/
theorem parse_malformed_fails_witness :
    parseSerializedValue (SerializedValue.mk none none none none none none none none none)
      none = Except.error "Unexpected value" :=
  parse_malformed_fails none none rfl

/-- C9: decoding the h-tagged value against a supplied table of length at
most k does not fail: the out-of-bounds lookup returns undefined; the
Unexpected handle error is raised only when no table at all is supplied. -/
theorem parse_handle_out_of_bounds (tbl : List NativeValue) (k : Nat)
    (hk : tbl.length ≤ k) :
    parseSerializedValue (ofH k) (some tbl) = Except.ok NativeValue.undefined ∧
    parseSerializedValue (ofH k) none = Except.error "Unexpected handle" := by
  refine ⟨?_, rfl⟩
  simp [parseSerializedValue, ofH, List.getElem?_eq_none hk]

/-- Witness for C9 at the empty table. -/
theorem parse_handle_out_of_bounds_witness :
    parseSerializedValue (ofH 0) (some []) = Except.ok NativeValue.undefined ∧
    parseSerializedValue (ofH 0) none = Except.error "Unexpected handle" :=
  parse_handle_out_of_bounds [] 0 (by decide)

/-- C7: serializeError always populates exactly one branch of its result:
the error branch with exactly the message, stack, and name of the thrown
value whenever it is error-like of any name, otherwise the value branch
through the generic encoder with an always-pass-through resolver;
parseError fails loudly when neither branch is present; an error branch
named TimeoutError is reconstructed as that specific kind preserving the
given message and stack, and an error branch with any other name as a
generic error with the given message and stack; the round trips hold: a
timeout-kind error comes back as the same kind with its message and
stack, and a thrown non-error value with observable tree t comes back as
t through the generic codec. -/
theorem error_adapter_exact :
    (∀ (heap : Heap) (e : JSVal) (r : SerializedError), serializeError heap e = Except.ok r →
        (r.error ≠ none ∧ r.value = none) ∨ (r.error = none ∧ r.value ≠ none)) ∧
    (parseError { error := none, value := none } =
      Except.error "Serialized error must have either an error or a value") ∧
    (∀ (heap : Heap) (addr : Nat) (msg stk : String),
        heap.get? addr = some (.errorObj "TimeoutError" msg (some stk)) →
          ∃ se, serializeError heap (JSVal.ref addr) = Except.ok se ∧
            parseError se = Except.ok (.errorVal "TimeoutError" msg stk)) ∧
    (∀ (heap : Heap) (x : JSVal) (t : NativeValue), readTree heap x = some t →
        ∃ se, serializeError heap x = Except.ok se ∧ parseError se = Except.ok t) ∧
    (∀ (heap : Heap) (addr : Nat) (name msg : String) (stk : Option String),
        heap.get? addr = some (.errorObj name msg stk) →
          serializeError heap (JSVal.ref addr) =
            Except.ok ⟨some ⟨msg, stk, name⟩, none⟩) ∧
    (∀ (msg : String) (stk : Option String),
        parseError ⟨some ⟨msg, stk, "TimeoutError"⟩, none⟩ =
          Except.ok (.errorVal "TimeoutError" msg (stk.getD ""))) ∧
    (∀ p : ErrorPayload, p.name ≠ "TimeoutError" →
        parseError ⟨some p, none⟩ =
          Except.ok (.errorVal "Error" p.message (p.stack.getD ""))) := by
  refine ⟨?_, rfl, ?_, ?_, ?_, fun msg stk => rfl, ?_⟩
  · intro heap e r h
    unfold serializeError at h
    split at h
    · rename_i name message stack heq
      simp only [Except.ok.injEq] at h
      subst h
      exact Or.inl ⟨by simp, rfl⟩
    · split at h
      · rename_i w vis2 hval
        simp only [Except.ok.injEq] at h
        subst h
        exact Or.inr ⟨rfl, by simp⟩
      · simp at h
  · intro heap addr msg stk hget
    rw [List.get?_eq_getElem?] at hget
    refine ⟨⟨some ⟨msg, some stk, "TimeoutError"⟩, none⟩, ?_, rfl⟩
    unfold serializeError
    simp [helperIsErrorPayload, hget]
  · intro heap x t hx
    have hne := readTree_not_errorLike heap x t hx
    obtain ⟨w, hw, hpw⟩ := serialize_lockstep heap (heap.length + 1) x ∅ t hx
    refine ⟨⟨none, some w⟩, ?_, ?_⟩
    · unfold serializeError
      rw [hne]
      rw [show serializeValue heap (fun value => .fallThrough value) x ∅ = (Except.ok w, ∅)
        from hw]
    · simp [parseError, hpw]
  · intro heap addr name msg stk hget
    rw [List.get?_eq_getElem?] at hget
    unfold serializeError
    simp [helperIsErrorPayload, hget]
  · intro p hname
    simp [parseError, hname]

/-- Witness for C7: a timeout-kind error round trips through the adapter
keeping its name, message, and stack, and an error branch with another
name decodes to a generic error with the given message and stack. -/
theorem error_adapter_exact_witness :
    (∃ se, serializeError [JSObj.errorObj "TimeoutError" "boom" (some "st")] (JSVal.ref 0) =
        Except.ok se ∧
      parseError se = Except.ok (.errorVal "TimeoutError" "boom" "st")) ∧
    parseError ⟨some ⟨"boom", some "st", "TypeError"⟩, none⟩ =
      Except.ok (.errorVal "Error" "boom" "st") :=
  ⟨error_adapter_exact.2.2.1 [JSObj.errorObj "TimeoutError" "boom" (some "st")] 0 "boom" "st" rfl,
   error_adapter_exact.2.2.2.2.2.2 ⟨"boom", some "st", "TypeError"⟩ (by decide)⟩

/-- C8 counterexample: the claim is false of the code: there is no maximum
depth past which serializeValue fails, whether with a distinct
too-deeply-nested error or with any other error: for every candidate
bound m the chain of m + 1 nested singleton arrays is deeper than m and
still encodes successfully. -/
theorem serializeValue_no_depth_limit :
    ¬ ∃ maxDepth : Nat, ∀ (heap : Heap) (value : JSVal) (t : NativeValue),
        readTree heap value = some t → maxDepth < treeDepth t →
        ∃ msg, (serializeValue heap fallThroughResolver value ∅).1 = Except.error msg := by
  rintro ⟨m, hm⟩
  obtain ⟨w, hw, -⟩ := serialize_lockstep (chainHeap (m + 1)) ((chainHeap (m + 1)).length + 1)
    (JSVal.ref 0) ∅ (chainTree m) (chainHeap_read_top m)
  obtain ⟨msg, hmsg⟩ := hm (chainHeap (m + 1)) (JSVal.ref 0) (chainTree m)
    (chainHeap_read_top m) (by rw [treeDepth_chainTree]; omega)
  rw [show serializeValue (chainHeap (m + 1)) fallThroughResolver (JSVal.ref 0) ∅ =
    (Except.ok w, ∅) from hw] at hmsg
  simp at hmsg

/-- C8 (amended): serializeValue imposes no maximum depth and never raises
a too-deeply-nested error: for every bound there is an acyclic input of
strictly greater structural depth that still serializes successfully;
recursion depth is bounded by the structural depth of the input, and the
cycle check, not a depth cap, is what stops the recursion on cyclic
input. -/
theorem serializeValue_depth_unbounded (maxDepth : Nat) :
    ∃ (heap : Heap) (value : JSVal) (t : NativeValue),
      readTree heap value = some t ∧ maxDepth < treeDepth t ∧
      ∃ w, serializeValue heap fallThroughResolver value ∅ = (Except.ok w, ∅) := by
  obtain ⟨w, hw, -⟩ := serialize_lockstep (chainHeap (maxDepth + 1))
    ((chainHeap (maxDepth + 1)).length + 1) (JSVal.ref 0) ∅ (chainTree maxDepth)
    (chainHeap_read_top maxDepth)
  exact ⟨chainHeap (maxDepth + 1), JSVal.ref 0, chainTree maxDepth,
    chainHeap_read_top maxDepth, by rw [treeDepth_chainTree]; omega, w, hw⟩

/-- C10: when both the error branch and the value branch are present,
parseError uses the error branch exclusively: the result is the same as
with the value branch absent, and is the reconstructed error built from
message, stack, and name (the timeout kind exactly when the name says so);
the value branch is never decoded. -/
theorem parseError_prefers_error_branch (p : ErrorPayload) (w : SerializedValue) :
    parseError { error := some p, value := some w } =
      parseError { error := some p, value := none } ∧
    parseError { error := some p, value := some w } =
      Except.ok (.errorVal (if p.name = "TimeoutError" then "TimeoutError" else "Error")
        p.message (p.stack.getD "")) := by
  refine ⟨rfl, ?_⟩
  by_cases hname : p.name = "TimeoutError" <;> simp [parseError, hname]
